import Mathlib

/-!
Shallow embedding of mm.c (malloclab allocator: explicit segregated free
lists, boundary tags, eager coalescing).

Modelling conventions, stated once:
* A block is a header/footer-tagged span; we record its size field (full
  block size in bytes, always written as a multiple of 8 by the code) and
  its allocated bit.  The heap between the prologue and the epilogue is the
  list of these blocks in physical order (`Heap.blocks`).  The prologue and
  the epilogue are both allocated sentinels, so a missing physical
  neighbour reads as an allocated block of size 0 — exactly the epilogue
  encoding PACK(0,1) of mm.c.
* The segregated free list is `Heap.buckets`, a list of MAXCLASS bucket
  lists.  Bucket nodes are identified by their size field (the only block
  attribute the list operations of mm.c read); remove_list removes the
  first node of the given size, which is observationally the same at this
  level of abstraction because equal-sized nodes are indistinguishable.
* Addresses are byte offsets from the first mem_sbrk return value.  mm_init
  consumes (3 + MAXCLASS) * WSIZE = 72 bytes for the size-class table, the
  prologue and the epilogue, so the payload of the first real block sits at
  offset 72 and the payload of block i at 72 + sum of the sizes before it.
* mem_sbrk is modelled by a boolean oracle: `false` means the growth
  primitive fails (returns -1), `true` means every call in the operation
  succeeds.  Payload bytes (memcpy) are outside the model; mm_realloc's
  fallback path performs its unchecked memcpy on bytes we do not track.
-/

/-- WSIZE of mm.c: word and header/footer size in bytes. -/
def WSIZE : Nat := 4

/-- DSIZE of mm.c: double word size in bytes. -/
def DSIZE : Nat := 8

/-- CHUNKSIZE of mm.c: default heap extension amount, 1 <<< 12. -/
def CHUNKSIZE : Nat := 4096

/-- MAXCLASS of mm.c: number of size classes. -/
def MAXCLASS : Nat := 15

/-- ALIGN of mm.c: round up to the nearest multiple of 8.  On Nat,
(size + 7) and-not 7 equals (size + 7) minus its remainder mod 8. -/
def ALIGN (size : Nat) : Nat := (size + 7) - (size + 7) % 8

/-- One boundary-tagged block: its header size field and allocated bit. -/
structure Block where
  size : Nat
  alloc : Bool
deriving DecidableEq, Repr

/-- Reading a physical neighbour that does not exist yields the sentinel
encoding PACK(0, 1): size 0, allocated.  This is the epilogue header (and,
at the low end, the prologue, whose allocated bit is all the code reads). -/
def sentinel : Block := ⟨0, true⟩

/-- Allocator state: the physical block list between prologue and epilogue,
and the MAXCLASS segregated free-list buckets (lists of block size fields,
in list order from the bucket head). -/
structure Heap where
  blocks : List Block
  buckets : List (List Nat)
deriving DecidableEq, Repr

/-- Size-class search loop shared by insert_list, remove_list (mm.c lines
90-93, 130-133): shift size right until it is at most 1 or the last class
is reached; returns (shifted size, class index).  The first argument is
the number of loop iterations still permitted by the bound
i < MAXCLASS - 1, which makes the recursion structural; calling it with
fuel = MAXCLASS - 1 - i is exact, and any fuel ≥ MAXCLASS - 1 - i computes
the same result because the guard re-checks i each round. -/
def classLoop : Nat → Nat → Nat → Nat × Nat
  | 0, s, i => (s, i)
  | fuel + 1, s, i =>
    if 1 < s ∧ i < MAXCLASS - 1 then classLoop fuel (s >>> 1) (i + 1) else (s, i)

/-- Bucket index the size-class loop assigns to a block size. -/
def classOf (s : Nat) : Nat := (classLoop (MAXCLASS - 1) s 0).2

/-- Value the size has been shifted down to when the size-class loop of
insert_list ends; this shifted value, not the block size, is what the
insert-position loop of mm.c line 98 compares against node sizes. -/
def shiftedOf (s : Nat) : Nat := (classLoop (MAXCLASS - 1) s 0).1

/-- Position-search loop of insert_list (mm.c lines 98-101): number of
leading nodes whose size field is strictly below the compared key. -/
def insertPos (key : Nat) : List Nat → Nat
  | [] => 0
  | x :: xs => if x < key then insertPos key xs + 1 else 0

/-- Splice a value into a list at the given position. -/
def insertAt : Nat → Nat → List Nat → List Nat
  | 0, v, l => v :: l
  | _ + 1, v, [] => [v]
  | n + 1, v, x :: l => x :: insertAt n v l

/-- insert_list of mm.c (lines 84-118): compute the class of the block
size, then splice the block into that bucket immediately before the first
node whose size is at least the SHIFTED size (the code compares the
mutated loop variable, not the block size). -/
def insert_list (buckets : List (List Nat)) (size : Nat) : List (List Nat) :=
  let idx := classOf size
  let b := buckets.getD idx []
  buckets.set idx (insertAt (insertPos (shiftedOf size) b) size b)

/-- remove_list of mm.c (lines 123-147): unlink the block from its bucket.
Modelled as removing the first node with the block's size field. -/
def remove_list (buckets : List (List Nat)) (size : Nat) : List (List Nat) :=
  let idx := classOf size
  buckets.set idx ((buckets.getD idx []).erase size)

/-- Inner scan of find_fit (mm.c lines 254-255): walk the bucket from its
head to the first node whose size is at least asize. -/
def bucketScan (asize : Nat) (b : List Nat) : Option Nat :=
  b.find? (fun e => decide (asize ≤ e))

/-- Outer loop of find_fit (mm.c lines 250-262): iterate over the MAXCLASS
buckets; a bucket is scanned only when the running size, shifted right once
per class, has dropped to at most 1. -/
def findFitAux (asize : Nat) : Nat → List (List Nat) → Option Nat
  | _, [] => none
  | size, b :: bs =>
    match (if size ≤ 1 then bucketScan asize b else none) with
    | some e => some e
    | none => findFitAux asize (size >>> 1) bs

/-- find_fit of mm.c (lines 243-264): segregated-fit search returning the
size field of the found free block, or none. -/
def find_fit (asize : Nat) (buckets : List (List Nat)) : Option Nat :=
  findFitAux asize asize buckets

/-- Sum of the size fields of a block list. -/
def sumSizes : List Block → Nat
  | [] => 0
  | b :: bs => b.size + sumSizes bs

/-- Payload address (byte offset from the first mem_sbrk return) of block
i: the table, prologue and epilogue of mm_init occupy 72 bytes, so the
first payload is at 72 and later ones follow the preceding sizes.
Modelled from the spec: memlib.c is not part of the sources; per the
external-interface contract the growth primitive hands out consecutive
addresses starting from a double-word aligned base, which we take as 0. -/
def addrOf (blocks : List Block) (i : Nat) : Nat :=
  (3 + MAXCLASS) * WSIZE + sumSizes (blocks.take i)

/-- Physical predecessor read via PREV_BLKP: for the first real block that
read lands on the prologue, an allocated sentinel. -/
def getPrev (blocks : List Block) (i : Nat) : Block :=
  if i = 0 then sentinel else blocks.getD (i - 1) sentinel

/-- coalesce of mm.c (lines 152-185): block i has just been written free;
merge it with free physical neighbours (sentinels read as allocated) along
the four cases of figure 9-40, updating the buckets exactly as the code
does (remove merged neighbours, insert the resulting block), and return
the new state together with the index of the resulting block. -/
def coalesce (st : Heap) (i : Nat) : Heap × Nat :=
  let b := st.blocks.getD i sentinel
  let prev := getPrev st.blocks i
  let next := st.blocks.getD (i + 1) sentinel
  if prev.alloc ∧ next.alloc then
    (⟨st.blocks, insert_list st.buckets b.size⟩, i)
  else if prev.alloc ∧ ¬next.alloc then
    let size := b.size + next.size
    (⟨st.blocks.take i ++ ⟨size, false⟩ :: st.blocks.drop (i + 2),
      insert_list (remove_list st.buckets next.size) size⟩, i)
  else if ¬prev.alloc ∧ next.alloc then
    let size := prev.size + b.size
    (⟨st.blocks.take (i - 1) ++ ⟨size, false⟩ :: st.blocks.drop (i + 1),
      insert_list (remove_list st.buckets prev.size) size⟩, i - 1)
  else
    let size := prev.size + b.size + next.size
    (⟨st.blocks.take (i - 1) ++ ⟨size, false⟩ :: st.blocks.drop (i + 2),
      insert_list (remove_list (remove_list st.buckets prev.size) next.size) size⟩,
     i - 1)

/-- extend_heap of mm.c (lines 190-206): align the increment, grow via the
sbrk oracle (failure mutates nothing), write a free block over the new
span (stitching a fresh epilogue, which stays implicit here) and coalesce
it with the previous last block. -/
def extend_heap (sbrk : Bool) (st : Heap) (size : Nat) : Option (Heap × Nat) :=
  if sbrk then
    let sz := ALIGN size
    let blocks1 := st.blocks ++ [⟨sz, false⟩]
    some (coalesce ⟨blocks1, st.buckets⟩ (blocks1.length - 1))
  else
    none

/-- place of mm.c (lines 211-237): carve asize out of free block i.  The
block is first removed from its bucket; if the remainder is below the
16-byte minimum the whole block is allocated, else for asize < 96 the
allocated piece goes to the low address and the free remainder (inserted
into its bucket) to the high address, and otherwise the free remainder
stays at the low address and the allocated piece goes high.  Returns the
new state and the payload address handed back to the caller. -/
def place (st : Heap) (i : Nat) (asize : Nat) : Heap × Nat :=
  let csize := (st.blocks.getD i sentinel).size
  let remain := csize - asize
  let bk := remove_list st.buckets csize
  if remain < 2 * DSIZE then
    (⟨st.blocks.set i ⟨csize, true⟩, bk⟩, addrOf st.blocks i)
  else if asize < 96 then
    (⟨st.blocks.take i ++ ⟨asize, true⟩ :: ⟨remain, false⟩ :: st.blocks.drop (i + 1),
      insert_list bk remain⟩, addrOf st.blocks i)
  else
    (⟨st.blocks.take i ++ ⟨remain, false⟩ :: ⟨asize, true⟩ :: st.blocks.drop (i + 1),
      insert_list bk remain⟩, addrOf st.blocks i + remain)

/-- Size adjustment of mm_malloc (mm.c lines 305-308) and mm_realloc
(lines 346-349): add overhead and round up, with a floor of 16 bytes. -/
def adjust (size : Nat) : Nat :=
  if size ≤ DSIZE then 2 * DSIZE else ALIGN (size + DSIZE)

/-- mm_malloc of mm.c (lines 294-319).  The pointer find_fit returns is
recovered as the first free block carrying the returned size field; in
states where buckets list exactly the free blocks this is a block the
bucket holds.  Returns the payload address (none on failure) and the new
state. -/
def mm_malloc (sbrk : Bool) (st : Heap) (size : Nat) : Option Nat × Heap :=
  if size = 0 then (none, st)
  else
    let asize := adjust size
    match find_fit asize st.buckets with
    | some fs =>
      match st.blocks.findIdx? (fun b => !b.alloc && b.size == fs) with
      | some i => let r := place st i asize; (some r.2, r.1)
      | none => (none, st)
    | none =>
      match extend_heap sbrk st (max asize CHUNKSIZE) with
      | none => (none, st)
      | some (st1, j) => let r := place st1 j asize; (some r.2, r.1)

/-- mm_free of mm.c (lines 324-331): clear the allocated bit of block i,
keeping its size, then coalesce. -/
def mm_free (st : Heap) (i : Nat) : Heap :=
  let sz := (st.blocks.getD i sentinel).size
  (coalesce ⟨st.blocks.set i ⟨sz, false⟩, st.buckets⟩ i).1

/-- Index of the block whose payload address is a, used to re-identify a
pointer after the heap changed underneath it. -/
def idxOfAddr (blocks : List Block) (a : Nat) : Option Nat :=
  (List.range blocks.length).find? (fun i => addrOf blocks i == a)

/-- mm_realloc of mm.c (lines 337-376).  size 0 returns null touching
nothing; if the adjusted size fits the current block the pointer is
returned unchanged; if the next physical block is free or is the epilogue
(the sentinel read, size 0) the block is grown in place, extending the
heap first when the combined span is short — the combined size written is
sz + remain with remain updated exactly as the signed arithmetic of the
code does, whether or not the extension is physically adjacent to block i;
otherwise mm_malloc is called on the ALREADY adjusted size (which mm_malloc
adjusts again), the unchecked memcpy is outside the model, and block i is
freed. -/
def mm_realloc (sbrk : Bool) (st : Heap) (i : Nat) (size : Nat) : Option Nat × Heap :=
  if size = 0 then (none, st)
  else
    let sz := adjust size
    let cur := (st.blocks.getD i sentinel).size
    if sz ≤ cur then (some (addrOf st.blocks i), st)
    else
      let nb := st.blocks.getD (i + 1) sentinel
      if ¬nb.alloc ∨ nb.size = 0 then
        if cur + nb.size < sz then
          let amount := max (sz - (cur + nb.size)) CHUNKSIZE
          match extend_heap sbrk st amount with
          | none => (none, st)
          | some (st1, _) =>
            let f := st1.blocks.getD (i + 1) sentinel
            (some (addrOf st.blocks i),
             ⟨st1.blocks.take i ++ ⟨cur + nb.size + amount, true⟩ :: st1.blocks.drop (i + 2),
              remove_list st1.buckets f.size⟩)
        else
          (some (addrOf st.blocks i),
           ⟨st.blocks.take i ++ ⟨cur + nb.size, true⟩ :: st.blocks.drop (i + 2),
            remove_list st.buckets nb.size⟩)
      else
        let r := mm_malloc sbrk st sz
        let st2 := match idxOfAddr r.2.blocks (addrOf st.blocks i) with
          | some j => mm_free r.2 j
          | none => r.2
        (r.1, st2)

/-- mm_init of mm.c (lines 269-288): zero the size-class table, write the
prologue and epilogue sentinels (implicit in the model) and extend the
empty heap by CHUNKSIZE; fails if the growth primitive does. -/
def mm_init (sbrk : Bool) : Option Heap :=
  if sbrk then
    match extend_heap sbrk ⟨[], List.replicate MAXCLASS []⟩ CHUNKSIZE with
    | some (st, _) => some st
    | none => none
  else
    none

/-! ## Shared helper lemmas and concrete states -/

/-- Sample bucket table: MAXCLASS buckets, bucket 4 holding one free block
of size 16 (classOf 16 = 4). -/
def demoB : List (List Nat) := (List.replicate MAXCLASS ([] : List Nat)).set 4 [16]

/-- Heap reached by the trace init; a = malloc 8; b = malloc 8; c = malloc 8;
free b: blocks a(16, allocated), b(16, free), c(16, allocated) and the
4048-byte tail of the initial chunk, free. -/
def traceSt : Heap :=
  let s0 := (mm_init true).getD ⟨[], []⟩
  let s1 := (mm_malloc true s0 8).2
  let s2 := (mm_malloc true s1 8).2
  let s3 := (mm_malloc true s2 8).2
  mm_free s3 1

/-- Heap of two allocated 16-byte blocks with every bucket empty. -/
def stC5 : Heap := ⟨[⟨16, true⟩, ⟨16, true⟩], List.replicate MAXCLASS []⟩

/-- Heap of one allocated 16-byte block with every bucket empty. -/
def stOne : Heap := ⟨[⟨16, true⟩], List.replicate MAXCLASS []⟩

/-- Heap of one free 4096-byte block listed in bucket 12, as produced by
mm_init. -/
def stInit : Heap :=
  ⟨[⟨4096, false⟩], (List.replicate MAXCLASS ([] : List Nat)).set 12 [4096]⟩

/-- Position the specification describes for insert_list: index of the
first node whose size is at least the new block's size (the block size
itself, not the shifted value). -/
def specInsertPos (size : Nat) : List Nat → Nat
  | [] => 0
  | x :: xs => if size ≤ x then 0 else specInsertPos size xs + 1

/-- Insertion routine the specification describes: splice the block into
bucket classOf size immediately before the first node whose size is at
least the block's size (at the tail if none qualifies). -/
def insertListSpec (buckets : List (List Nat)) (size : Nat) : List (List Nat) :=
  let idx := classOf size
  let b := buckets.getD idx []
  buckets.set idx (insertAt (specInsertPos size b) size b)

/-- Every run of the size-class loop moves the index up by at most the
fuel, and past MAXCLASS - 2 only when it ends with a shifted size of at
most 1. -/
theorem classLoop_snd_le (fuel s i : Nat) : (classLoop fuel s i).2 ≤ i + fuel := by
  induction fuel generalizing s i with
  | zero => simp [classLoop]
  | succ n ih =>
    simp only [classLoop]
    split
    · exact le_trans (ih (s >>> 1) (i + 1)) (by omega)
    · omega

/-- Loop exit analysis: if the shifted result is still above 1, the loop
stopped because the index reached MAXCLASS - 1 (given enough fuel) or
because the fuel ran out at index i + fuel. -/
theorem classLoop_exit (fuel s i : Nat) (hi : i ≤ MAXCLASS - 1)
    (hbig : 1 < (classLoop fuel s i).1) :
    (classLoop fuel s i).2 = MAXCLASS - 1 ∨ (classLoop fuel s i).2 = i + fuel := by
  induction fuel generalizing s i with
  | zero => right; simp [classLoop]
  | succ n ih =>
    simp only [classLoop] at hbig ⊢
    by_cases h : 1 < s ∧ i < MAXCLASS - 1
    · rw [if_pos h] at hbig ⊢
      rcases ih (s >>> 1) (i + 1) (by omega) hbig with h1 | h1
      · exact Or.inl h1
      · right; omega
    · rw [if_neg h] at hbig ⊢
      simp only at hbig
      left; omega

/-- The class index never reaches MAXCLASS. -/
theorem classOf_lt (s : Nat) : classOf s < MAXCLASS := by
  have := classLoop_snd_le (MAXCLASS - 1) s 0
  have hM : MAXCLASS = 15 := rfl
  unfold classOf
  omega

/-- A block whose class index stays below the last class had its size
shifted down to at most 1 when the loop ended. -/
theorem shiftedOf_le_one (s : Nat) (h : classOf s < MAXCLASS - 1) :
    shiftedOf s ≤ 1 := by
  by_contra hbig
  have h2 : 1 < shiftedOf s := by omega
  unfold shiftedOf at h2
  rcases classLoop_exit (MAXCLASS - 1) s 0 (Nat.zero_le _) h2 with h1 | h1 <;>
  · unfold classOf at h
    omega

/-! ## Claim C6: degenerate requests are no-ops -/

/-- Claim C6: degenerate requests are no-ops, not errors — mm_malloc 0
returns null with no effect on the heap, and mm_realloc of size 0 returns
null without freeing the pointer and without any other change. -/
theorem c6_zero_size_noop (sbrk : Bool) (st : Heap) (i : Nat) :
    mm_malloc sbrk st 0 = (none, st) ∧ mm_realloc sbrk st i 0 = (none, st) := by
  constructor <;> simp [mm_malloc, mm_realloc]

/-! ## Claim C8: shrinking realloc returns the same pointer, heap untouched -/

/-- Claim C8: for an allocated block and a nonzero request whose adjusted
size fits in the current block size, mm_realloc returns the block's own
payload pointer and the heap — blocks and buckets alike — is unchanged. -/
theorem c8_realloc_fit_identity (sbrk : Bool) (st : Heap) (i size : Nat)
    (hpos : size ≠ 0)
    (halloc : (st.blocks.getD i sentinel).alloc = true)
    (hfit : adjust size ≤ (st.blocks.getD i sentinel).size) :
    mm_realloc sbrk st i size = (some (addrOf st.blocks i), st) := by
  unfold mm_realloc
  rw [if_neg hpos]
  simp only [if_pos hfit]

/-- Claim C8 witness: heap of a single allocated 16-byte block, request 8
(adjusted 16). -/
theorem c8_realloc_fit_identity_witness :
    ((8 : Nat) ≠ 0 ∧ (stOne.blocks.getD 0 sentinel).alloc = true ∧
      adjust 8 ≤ (stOne.blocks.getD 0 sentinel).size) ∧
    mm_realloc true stOne 0 8 = (some (addrOf stOne.blocks 0), stOne) :=
  ⟨⟨by decide, by decide, by decide⟩,
    c8_realloc_fit_identity true stOne 0 8 (by decide) (by decide) (by decide)⟩

/-! ## Claim C2: sorted-bucket invariant and insert policy -/

/-- Claim C2 counterexample: inserting a free block of size 24 into its
bucket (class 4, already holding a block of size 16) splices it at the
HEAD, because insert_list compares the right-shifted size (1) with the
node size 16; the spec-described sorted insertion would put it at the
tail, and the resulting list is not ascending. -/
theorem c2_sorted_insert_cex :
    classOf 24 = classOf 16 ∧
    insert_list demoB 24 = demoB.set 4 [24, 16] ∧
    insertListSpec demoB 24 = demoB.set 4 [16, 24] ∧
    insert_list demoB 24 ≠ insertListSpec demoB 24 ∧
    ¬ List.Pairwise (· ≤ ·) ((insert_list demoB 24).getD 4 []) := by
  refine ⟨by decide, by decide, by decide, by decide, by decide⟩

/-- Claim C2 (amended): insert_list places the block into exactly the
bucket classOf size — every other bucket is untouched — but the splice
position is found by comparing each node's size against the right-SHIFTED
size, not the block's size, so ascending order is not maintained. -/
theorem c2_insert_shifted_position (size : Nat) (buckets : List (List Nat)) (j : Nat)
    (hlen : buckets.length = MAXCLASS) (hj : j < MAXCLASS) (hne : j ≠ classOf size) :
    (insert_list buckets size).length = buckets.length ∧
    (insert_list buckets size).getD j [] = buckets.getD j [] ∧
    (insert_list buckets size).getD (classOf size) [] =
      insertAt (insertPos (shiftedOf size) (buckets.getD (classOf size) []))
        size (buckets.getD (classOf size) []) := by
  unfold insert_list
  refine ⟨List.length_set _ _ _, ?_, ?_⟩
  · simp only [List.getD_eq_getElem?_getD]
    rw [List.getElem?_set_ne (Ne.symm hne)]
  · simp only [List.getD_eq_getElem?_getD]
    rw [List.getElem?_set_self (by rw [hlen]; exact classOf_lt size)]
    simp

/-- Claim C2 witness: insert size 24 into demoB and look at buckets 5
and 4. -/
theorem c2_insert_shifted_position_witness :
    (demoB.length = MAXCLASS ∧ 5 < MAXCLASS ∧ 5 ≠ classOf 24) ∧
    ((insert_list demoB 24).length = demoB.length ∧
      (insert_list demoB 24).getD 5 [] = demoB.getD 5 [] ∧
      (insert_list demoB 24).getD (classOf 24) [] =
        insertAt (insertPos (shiftedOf 24) (demoB.getD (classOf 24) []))
          24 (demoB.getD (classOf 24) [])) :=
  ⟨⟨by decide, by decide, by decide⟩,
    c2_insert_shifted_position 24 demoB 5 (by decide) (by decide) (by decide)⟩

/-! ## Claim C9: head splice for every class below the last -/

/-- Claim C9: a free block whose bucket index is below MAXCLASS - 1 (its
size was shifted down to at most 1 before the last bucket) is spliced in
at the head of its bucket, before every node already present, because the
position loop compares the shifted size against full node sizes (at least
16). -/
theorem c9_insert_at_head (size : Nat) (buckets : List (List Nat))
    (hcls : classOf size < MAXCLASS - 1)
    (hmin : ∀ x ∈ buckets.getD (classOf size) [], 16 ≤ x) :
    insert_list buckets size =
      buckets.set (classOf size) (size :: buckets.getD (classOf size) []) := by
  have hsh := shiftedOf_le_one size hcls
  have h0 : insertPos (shiftedOf size) (buckets.getD (classOf size) []) = 0 := by
    cases hb : buckets.getD (classOf size) [] with
    | nil => rfl
    | cons x xs =>
      have hx : 16 ≤ x := hmin x (by rw [hb]; exact List.mem_cons_self x xs)
      simp only [insertPos, ite_eq_right_iff]
      omega
  unfold insert_list
  simp only [h0, insertAt]

/-- Claim C9 witness: size 24 (class 4, shifted value 1) goes to the head
of bucket 4 even though the node already there is smaller (16 < 24). -/
theorem c9_insert_at_head_witness :
    (classOf 24 < MAXCLASS - 1 ∧ ∀ x ∈ demoB.getD (classOf 24) [], 16 ≤ x) ∧
    insert_list demoB 24 = demoB.set (classOf 24) (24 :: demoB.getD (classOf 24) []) :=
  ⟨⟨by decide, by decide⟩, c9_insert_at_head 24 demoB (by decide) (by decide)⟩

/-! ## Claim C1: the adjacency invariant and the realloc growth bug -/

/-- Claim C1 (code bug evidence): run init; a = malloc 8; b = malloc 8;
c = malloc 8; free b; realloc a 40.  Before the realloc, a is allocated,
b (16 bytes) free, c allocated: only 32 bytes separate a's payload from
the live block c.  The in-place growth path extends the heap at its END
(not adjacent to b), then rewrites a's header to 48 + 4080 = 4128 bytes;
a's span now covers c and part of the far-away extension, destroying the
physical block sequence over which the no-two-adjacent-free-blocks
invariant is stated.  The theorem evaluates the model at this trace: the
combined size written (4128) strictly exceeds the 32 bytes that lie
between a and c. -/
theorem c1_realloc_growth_overlap :
    traceSt.blocks = [⟨16, true⟩, ⟨16, false⟩, ⟨16, true⟩, ⟨4048, false⟩] ∧
    mm_realloc true traceSt 0 40 =
      (some 72, ⟨[⟨4128, true⟩, ⟨16, true⟩, ⟨8144, false⟩],
        (List.replicate MAXCLASS ([] : List Nat)).set 12 [8144]⟩) ∧
    sumSizes (traceSt.blocks.take 2) = 32 ∧ 32 < 4128 := by
  refine ⟨by decide, by decide, by decide, by decide⟩

/-! ## Claim C5: growth failure during allocate and reallocate -/

/-- Claim C5 (code bug evidence): a growth failure inside mm_realloc's
copy fallback is not a no-op.  With two allocated blocks, empty buckets
and a failing growth primitive, realloc a 40 takes the fallback path, the
nested mm_malloc fails and returns null, the code passes that null
straight to memcpy (undefined behaviour, outside the model) and then
frees the old block anyway: the model returns null with block 0 freed and
inserted into bucket 4 — the heap is NOT unchanged. -/
theorem c5_fallback_growth_failure_mutates :
    (mm_malloc false stC5 (adjust 40)).1 = none ∧
    mm_realloc false stC5 0 40 = (none, ⟨[⟨16, false⟩, ⟨16, true⟩], demoB⟩) ∧
    (mm_realloc false stC5 0 40).2 ≠ stC5 := by
  refine ⟨by decide, by decide, by decide⟩

/-- Claim C5 (amended direct paths): when the growth primitive fails in
mm_malloc (no fit found) or in mm_realloc's in-place growth path, the
operation returns null and the heap is unchanged — nothing was mutated
before the failed extension. -/
theorem c5_direct_growth_failure_noop (st : Heap) (i size : Nat)
    (hm : find_fit (adjust size) st.buckets = none)
    (hpos : size ≠ 0)
    (hgrow : adjust size > (st.blocks.getD i sentinel).size)
    (hnext : ¬(st.blocks.getD (i + 1) sentinel).alloc = true ∨
      (st.blocks.getD (i + 1) sentinel).size = 0)
    (hshort : (st.blocks.getD i sentinel).size +
      (st.blocks.getD (i + 1) sentinel).size < adjust size) :
    mm_malloc false st size = (none, st) ∧
    mm_realloc false st i size = (none, st) := by
  constructor
  · unfold mm_malloc
    rw [if_neg hpos]
    simp only [hm]
    simp [extend_heap]
  · unfold mm_realloc
    rw [if_neg hpos]
    have hfit : ¬ adjust size ≤ (st.blocks.getD i sentinel).size := by omega
    simp only [if_neg hfit]
    have hnb : ¬(st.blocks.getD (i + 1) sentinel).alloc ∨
        (st.blocks.getD (i + 1) sentinel).size = 0 := by
      rcases hnext with h | h
      · left; simpa using h
      · right; exact h
    rw [if_pos hnb, if_pos hshort]
    simp [extend_heap]

/-! ## Claim C4: place's split policy -/

/-- Sum of sizes distributes over append. -/
theorem sumSizes_append (l1 l2 : List Block) :
    sumSizes (l1 ++ l2) = sumSizes l1 + sumSizes l2 := by
  induction l1 with
  | nil => simp [sumSizes]
  | cons b bs ih => simp [sumSizes, ih]; omega

/-- Taking past a left factor keeps it whole. -/
theorem take_append_full {α : Type} (A B : List α) (k : Nat) (hk : A.length ≤ k) :
    (A ++ B).take k = A ++ B.take (k - A.length) := by
  rw [List.take_append_eq_append_take, List.take_of_length_le hk]

/-- Address of the first inserted block after a split: the low piece keeps
the original address. -/
theorem addrOf_split_low (A B : List Block) (x y : Block) :
    addrOf (A ++ x :: y :: B) A.length = (3 + MAXCLASS) * WSIZE + sumSizes A := by
  unfold addrOf
  rw [take_append_full A _ A.length (le_refl _)]
  simp [sumSizes_append, sumSizes]

/-- Address of the second inserted block after a split: original address
plus the size of the low piece. -/
theorem addrOf_split_high (A B : List Block) (x y : Block) :
    addrOf (A ++ x :: y :: B) (A.length + 1) =
      (3 + MAXCLASS) * WSIZE + sumSizes A + x.size := by
  unfold addrOf
  rw [take_append_full A _ (A.length + 1) (by omega)]
  have h1 : A.length + 1 - A.length = 1 := by omega
  rw [h1]
  simp [sumSizes_append, sumSizes]
  omega

/-- Claim C4: for a free block of size csize and an adjusted request
asize ≤ csize, place acts by cases on remain = csize - asize: below 16 the
whole block is allocated with no split; else for asize < 96 the allocated
piece of size asize sits at the low address and the free remainder at the
high address (inserted into the free list); else the free remainder sits
at the low address (inserted into the free list) and the allocated piece
of size asize at the high address, and place returns the payload pointer
of the allocated piece in every case. -/
theorem c4_place_split_policy (st : Heap) (i asize : Nat)
    (hi : i < st.blocks.length)
    (hfree : (st.blocks.getD i sentinel).alloc = false)
    (hle : asize ≤ (st.blocks.getD i sentinel).size) :
    ((st.blocks.getD i sentinel).size - asize < 16 →
      place st i asize =
        (⟨st.blocks.set i ⟨(st.blocks.getD i sentinel).size, true⟩,
          remove_list st.buckets (st.blocks.getD i sentinel).size⟩,
         addrOf st.blocks i)) ∧
    (16 ≤ (st.blocks.getD i sentinel).size - asize → asize < 96 →
      place st i asize =
        (⟨st.blocks.take i ++ ⟨asize, true⟩ ::
            ⟨(st.blocks.getD i sentinel).size - asize, false⟩ :: st.blocks.drop (i + 1),
          insert_list (remove_list st.buckets (st.blocks.getD i sentinel).size)
            ((st.blocks.getD i sentinel).size - asize)⟩,
         addrOf st.blocks i) ∧
      addrOf (st.blocks.take i ++ ⟨asize, true⟩ ::
          ⟨(st.blocks.getD i sentinel).size - asize, false⟩ :: st.blocks.drop (i + 1))
        (i + 1) = addrOf st.blocks i + asize) ∧
    (16 ≤ (st.blocks.getD i sentinel).size - asize → 96 ≤ asize →
      place st i asize =
        (⟨st.blocks.take i ++ ⟨(st.blocks.getD i sentinel).size - asize, false⟩ ::
            ⟨asize, true⟩ :: st.blocks.drop (i + 1),
          insert_list (remove_list st.buckets (st.blocks.getD i sentinel).size)
            ((st.blocks.getD i sentinel).size - asize)⟩,
         addrOf st.blocks i + ((st.blocks.getD i sentinel).size - asize)) ∧
      addrOf (st.blocks.take i ++ ⟨(st.blocks.getD i sentinel).size - asize, false⟩ ::
          ⟨asize, true⟩ :: st.blocks.drop (i + 1)) i = addrOf st.blocks i ∧
      addrOf (st.blocks.take i ++ ⟨(st.blocks.getD i sentinel).size - asize, false⟩ ::
          ⟨asize, true⟩ :: st.blocks.drop (i + 1)) (i + 1) =
        addrOf st.blocks i + ((st.blocks.getD i sentinel).size - asize)) := by
  have hD : 2 * DSIZE = 16 := rfl
  have hlenA : (st.blocks.take i).length = i := by
    rw [List.length_take]; omega
  refine ⟨fun h1 => ?_, fun h1 h2 => ⟨?_, ?_⟩, fun h1 h2 => ⟨?_, ?_, ?_⟩⟩
  · unfold place
    rw [if_pos (by omega : (st.blocks.getD i sentinel).size - asize < 2 * DSIZE)]
  · unfold place
    rw [if_neg (by omega : ¬((st.blocks.getD i sentinel).size - asize < 2 * DSIZE)),
      if_pos h2]
  · have := addrOf_split_high (st.blocks.take i) (st.blocks.drop (i + 1))
      ⟨asize, true⟩ ⟨(st.blocks.getD i sentinel).size - asize, false⟩
    rw [hlenA] at this
    rw [this]
    rfl
  · unfold place
    rw [if_neg (by omega : ¬((st.blocks.getD i sentinel).size - asize < 2 * DSIZE)),
      if_neg (by omega : ¬(asize < 96))]
  · have := addrOf_split_low (st.blocks.take i) (st.blocks.drop (i + 1))
      ⟨(st.blocks.getD i sentinel).size - asize, false⟩ ⟨asize, true⟩
    rw [hlenA] at this
    rw [this]
    unfold addrOf
    rfl
  · have := addrOf_split_high (st.blocks.take i) (st.blocks.drop (i + 1))
      ⟨(st.blocks.getD i sentinel).size - asize, false⟩ ⟨asize, true⟩
    rw [hlenA] at this
    rw [this]
    unfold addrOf
    rfl

/-- Claim C4 witness: the initial 4096-byte free block split by a 16-byte
request (small-object case: allocated piece low, remainder high). -/
theorem c4_place_split_policy_witness :
    (0 < stInit.blocks.length ∧ (stInit.blocks.getD 0 sentinel).alloc = false ∧
      16 ≤ (stInit.blocks.getD 0 sentinel).size) ∧
    (16 ≤ (stInit.blocks.getD 0 sentinel).size - 16 → 16 < 96 →
      place stInit 0 16 =
        (⟨stInit.blocks.take 0 ++ ⟨16, true⟩ ::
            ⟨(stInit.blocks.getD 0 sentinel).size - 16, false⟩ :: stInit.blocks.drop 1,
          insert_list (remove_list stInit.buckets (stInit.blocks.getD 0 sentinel).size)
            ((stInit.blocks.getD 0 sentinel).size - 16)⟩,
         addrOf stInit.blocks 0) ∧
      addrOf (stInit.blocks.take 0 ++ ⟨16, true⟩ ::
          ⟨(stInit.blocks.getD 0 sentinel).size - 16, false⟩ :: stInit.blocks.drop 1)
        1 = addrOf stInit.blocks 0 + 16) :=
  ⟨⟨by decide, by decide, by decide⟩,
    (c4_place_split_policy stInit 0 16 (by decide) (by decide) (by decide)).2.1⟩

/-! ## find_fit analysis: claims C3 and C10 -/

/-- The size-class loop never lowers the index. -/
theorem classLoop_snd_ge (fuel s i : Nat) : i ≤ (classLoop fuel s i).2 := by
  induction fuel generalizing s i with
  | zero => simp [classLoop]
  | succ n ih =>
    simp only [classLoop]
    split
    · exact le_trans (by omega) (ih (s >>> 1) (i + 1))
    · omega

/-- The shifted value the size-class loop ends with is the input shifted
right once per loop iteration. -/
theorem classLoop_fst_shift (fuel s i : Nat) :
    (classLoop fuel s i).1 = s >>> ((classLoop fuel s i).2 - i) := by
  induction fuel generalizing s i with
  | zero => simp [classLoop]
  | succ n ih =>
    simp only [classLoop]
    split
    · have hge := classLoop_snd_ge n (s >>> 1) (i + 1)
      rw [ih (s >>> 1) (i + 1)]
      have h1 : (classLoop n (s >>> 1) (i + 1)).2 - i =
          1 + ((classLoop n (s >>> 1) (i + 1)).2 - (i + 1)) := by omega
      rw [h1, Nat.shiftRight_add]
    · simp

/-- Minimality of the class index: while the loop is still running, every
intermediate shifted value is above 1. -/
theorem classLoop_min (fuel s i j : Nat) (hij : i ≤ j)
    (hj : j < (classLoop fuel s i).2) : 1 < s >>> (j - i) := by
  induction fuel generalizing s i j with
  | zero => simp [classLoop] at hj; omega
  | succ n ih =>
    simp only [classLoop] at hj
    by_cases h : 1 < s ∧ i < MAXCLASS - 1
    · rw [if_pos h] at hj
      by_cases hji : j = i
      · subst hji
        simpa using h.1
      · have := ih (s >>> 1) (i + 1) j (by omega) hj
        have h1 : j - i = 1 + (j - (i + 1)) := by omega
        rw [h1, Nat.shiftRight_add]
        exact this
    · rw [if_neg h] at hj
      simp at hj
      omega

/-- If a size shifts down to at most 1 within j steps, its class index is
at most j. -/
theorem classOf_le_of_shift (s j : Nat) (h : s >>> j ≤ 1) : classOf s ≤ j := by
  by_contra hc
  have h2 := classLoop_min (MAXCLASS - 1) s 0 j (Nat.zero_le _)
    (by unfold classOf at hc; omega)
  simp only [Nat.sub_zero] at h2
  omega

/-- For a size below 2^15 the converse holds: from the class index on, the
shifted size is at most 1 (for sizes of 2^15 and beyond the class is
capped at MAXCLASS - 1 while the shifted value is still above 1). -/
theorem shift_le_of_classOf (s j : Nat) (hs : s < 2 ^ 15) (h : classOf s ≤ j) :
    s >>> j ≤ 1 := by
  have hstep : ∀ k, s >>> classOf s ≤ 1 → classOf s ≤ k → s >>> k ≤ 1 := by
    intro k h1 hk
    have heq : s >>> k = (s >>> classOf s) >>> (k - classOf s) := by
      rw [← Nat.shiftRight_add]
      congr 1
      omega
    rw [heq, Nat.shiftRight_eq_div_pow]
    exact le_trans (Nat.div_le_self _ _) h1
  by_cases hc : classOf s < MAXCLASS - 1
  · have h1 := shiftedOf_le_one s hc
    have h2 := classLoop_fst_shift (MAXCLASS - 1) s 0
    simp only [Nat.sub_zero] at h2
    unfold shiftedOf at h1
    unfold classOf at *
    rw [h2] at h1
    exact hstep j h1 h
  · have hM : MAXCLASS = 15 := rfl
    have hlt := classOf_lt s
    have hc14 : classOf s = 14 := by omega
    have h14 : s >>> 14 ≤ 1 := by
      rw [Nat.shiftRight_eq_div_pow]
      norm_num
      omega
    exact hstep j (by rw [hc14]; exact h14) h

/-- A block size find_fit hands back is large enough for the request. -/
theorem findFitAux_some_le (asize : Nat) (bs : List (List Nat)) :
    ∀ size r : Nat, findFitAux asize size bs = some r → asize ≤ r := by
  induction bs with
  | nil => intro size r h; simp [findFitAux] at h
  | cons b bs ih =>
    intro size r h
    simp only [findFitAux] at h
    split at h
    next e heq =>
      injection h with h'
      subst h'
      by_cases hs : size ≤ 1
      · rw [if_pos hs] at heq
        have := List.find?_some heq
        simpa using this
      · rw [if_neg hs] at heq
        cases heq
    next heq => exact ih _ _ h

/-- When find_fit's scan comes back empty, every node of every bucket the
scan condition admitted (running size shifted to at most 1) is too small. -/
theorem findFitAux_none_mem (asize : Nat) (bs : List (List Nat)) :
    ∀ size : Nat, findFitAux asize size bs = none →
      ∀ j, j < bs.length → size >>> j ≤ 1 → ∀ x ∈ bs.getD j [], x < asize := by
  induction bs with
  | nil => intro size _ j hj; simp at hj
  | cons b bs ih =>
    intro size h j hj hshift x hx
    simp only [findFitAux] at h
    split at h
    next e heq => cases h
    next heq =>
      cases j with
      | zero =>
        rw [if_pos (by simpa using hshift)] at heq
        unfold bucketScan at heq
        rw [List.find?_eq_none] at heq
        have := heq x (by simpa using hx)
        simpa using this
      | succ k =>
        refine ih (size >>> 1) h k (by simpa using hj) ?_ x (by simpa using hx)
        rw [← Nat.shiftRight_add]
        rw [Nat.add_comm]
        exact hshift

/-- A bucket never scanned because the running size stays above 1 through
the whole table cannot change the verdict: with every shift at least 2,
find_fit is none. -/
theorem findFitAux_none_of_big (asize : Nat) (bs : List (List Nat)) :
    ∀ size : Nat, (∀ j, j < bs.length → ¬ size >>> j ≤ 1) →
      findFitAux asize size bs = none := by
  induction bs with
  | nil => intro size _; rfl
  | cons b bs ih =>
    intro size hbig
    have h0 : ¬ size ≤ 1 := by
      have := hbig 0 (by simp)
      simpa using this
    simp only [findFitAux, if_neg h0]
    refine ih (size >>> 1) ?_
    intro j hj
    rw [← Nat.shiftRight_add, Nat.add_comm]
    exact hbig (j + 1) (by simpa using hj)

/-- Bucket table whose last bucket (index 14) holds one free block of
size 32768 = 2^15; every other bucket is empty. -/
def bktLarge : List (List Nat) := (List.replicate MAXCLASS ([] : List Nat)).set 14 [32768]

/-- Claim C3 counterexample: for the adjusted request 32768 = 2^15 the
starting index classOf 32768 is 14 and bucket 14 holds a block of exactly
the requested size, yet find_fit reports not-found — the scan condition
(shifted size at most 1) never admits the last bucket, since 32768 shifted
14 times is still 2. -/
theorem c3_find_fit_miss_cex :
    classOf 32768 = 14 ∧ (32768 : Nat) ∈ bktLarge.getD 14 [] ∧
    (32768 : Nat) ≤ 32768 ∧ find_fit 32768 bktLarge = none := by
  refine ⟨by decide, by decide, by decide, by decide⟩

/-- Claim C3 (amended): for adjusted sizes below 2^15 the escalating
segregated-fit search is complete — if any bucket from classOf asize
upward holds a node of size at least asize then find_fit returns a
sufficiently large node, and a not-found verdict means every such bucket
was exhausted without a match.  (At 2^15 and beyond find_fit is constantly
none; see the counterexample and claim C10.) -/
theorem c3_find_fit_escalation (asize : Nat) (buckets : List (List Nat))
    (hlen : buckets.length = MAXCLASS) (hsm : asize < 2 ^ 15) :
    ((∃ j, classOf asize ≤ j ∧ j < MAXCLASS ∧ ∃ x ∈ buckets.getD j [], asize ≤ x) →
      ∃ r, find_fit asize buckets = some r ∧ asize ≤ r) ∧
    (find_fit asize buckets = none →
      ∀ j, classOf asize ≤ j → j < MAXCLASS → ∀ x ∈ buckets.getD j [], x < asize) := by
  constructor
  · rintro ⟨j, hcj, hjM, x, hx, hax⟩
    cases h : find_fit asize buckets with
    | some r => exact ⟨r, rfl, findFitAux_some_le asize buckets asize r h⟩
    | none =>
      exfalso
      have := findFitAux_none_mem asize buckets asize h j (by omega)
        (shift_le_of_classOf asize j hsm hcj) x hx
      omega
  · intro h j hcj hjM x hx
    exact findFitAux_none_mem asize buckets asize h j (by omega)
      (shift_le_of_classOf asize j hsm hcj) x hx

/-- Claim C3 witness: request 16 against demoB (bucket 4 holds a 16-byte
block). -/
theorem c3_find_fit_escalation_witness :
    (demoB.length = MAXCLASS ∧ 16 < 2 ^ 15) ∧
    (((∃ j, classOf 16 ≤ j ∧ j < MAXCLASS ∧ ∃ x ∈ demoB.getD j [], 16 ≤ x) →
      ∃ r, find_fit 16 demoB = some r ∧ 16 ≤ r) ∧
    (find_fit 16 demoB = none →
      ∀ j, classOf 16 ≤ j → j < MAXCLASS → ∀ x ∈ demoB.getD j [], x < 16)) :=
  ⟨⟨by decide, by decide⟩, c3_find_fit_escalation 16 demoB (by decide) (by decide)⟩

/-- Claim C10: an adjusted request of at least 2^15 bytes never reuses a
free block: find_fit is none whatever the buckets hold (the scan condition
requires the shifted size to be at most 1, which at least 15 shifts would
need), so mm_malloc takes the heap-extension path. -/
theorem c10_large_requests_extend (asize : Nat) (buckets : List (List Nat))
    (sbrk : Bool) (st : Heap) (size : Nat)
    (hlen : buckets.length = MAXCLASS) (hbig : 2 ^ 15 ≤ asize)
    (hstlen : st.buckets.length = MAXCLASS) (hsz : 2 ^ 15 ≤ adjust size) :
    find_fit asize buckets = none ∧
    mm_malloc sbrk st size =
      (match extend_heap sbrk st (max (adjust size) CHUNKSIZE) with
       | none => (none, st)
       | some (st1, j) =>
         (some (place st1 j (adjust size)).2, (place st1 j (adjust size)).1)) := by
  have hshift14 : ∀ a : Nat, 2 ^ 15 ≤ a → ∀ j, j ≤ 14 → ¬ a >>> j ≤ 1 := by
    intro a ha j hj hle
    rw [Nat.shiftRight_eq_div_pow] at hle
    have hpow : (2 : Nat) ^ j ≤ 2 ^ 14 := Nat.pow_le_pow_right (by norm_num) hj
    have hmono : a / 2 ^ 14 ≤ a / 2 ^ j :=
      Nat.div_le_div_left hpow (pow_pos (by norm_num) j)
    have h2 : 2 ≤ a / 2 ^ 14 := by
      rw [Nat.le_div_iff_mul_le (pow_pos (by norm_num) 14)]
      norm_num at ha ⊢
      omega
    omega
  have hnone : ∀ bkts : List (List Nat), bkts.length = MAXCLASS →
      ∀ a : Nat, 2 ^ 15 ≤ a → find_fit a bkts = none := by
    intro bkts hbl a ha
    refine findFitAux_none_of_big a bkts a ?_
    intro j hj
    have hM : MAXCLASS = 15 := rfl
    exact hshift14 a ha j (by omega)
  refine ⟨hnone buckets hlen asize hbig, ?_⟩
  have hzero : size ≠ 0 := by
    intro h0
    rw [h0] at hsz
    exact absurd hsz (by decide)
  unfold mm_malloc
  rw [if_neg hzero]
  simp only [hnone st.buckets hstlen (adjust size) hsz]

/-- Claim C10 witness: request 32760 (adjusted to 32768 = 2^15) against a
heap whose last bucket holds a block of exactly that size, with a failing
growth oracle. -/
theorem c10_large_requests_extend_witness :
    (bktLarge.length = MAXCLASS ∧ 2 ^ 15 ≤ 32768 ∧
      stOne.buckets.length = MAXCLASS ∧ 2 ^ 15 ≤ adjust 32760) ∧
    (find_fit 32768 bktLarge = none ∧
     mm_malloc false stOne 32760 =
       (match extend_heap false stOne (max (adjust 32760) CHUNKSIZE) with
        | none => (none, stOne)
        | some (st1, j) =>
          (some (place st1 j (adjust 32760)).2, (place st1 j (adjust 32760)).1))) :=
  ⟨⟨by decide, by decide, by decide, by decide⟩,
    c10_large_requests_extend 32768 bktLarge false stOne 32760
      (by decide) (by decide) (by decide) (by decide)⟩

/-! ## Claim C7: 8-byte alignment of returned pointers -/

/-- Every block size written by the code is a multiple of 8. -/
def aligned8 (blocks : List Block) : Prop := ∀ b ∈ blocks, b.size % 8 = 0

instance aligned8_decidable (blocks : List Block) : Decidable (aligned8 blocks) :=
  List.decidableBAll _ blocks

/-- Rounding up to a multiple of 8 yields a multiple of 8. -/
theorem ALIGN_mod8 (s : Nat) : ALIGN s % 8 = 0 := by
  unfold ALIGN
  omega

/-- The adjusted request size is always a multiple of 8. -/
theorem adjust_mod8 (s : Nat) : adjust s % 8 = 0 := by
  unfold adjust
  split
  · rfl
  · exact ALIGN_mod8 _

/-- Reading any block (or the sentinel) of an aligned heap yields an
aligned size. -/
theorem aligned8_getD (blocks : List Block) (i : Nat) (h : aligned8 blocks) :
    (blocks.getD i sentinel).size % 8 = 0 := by
  rw [List.getD_eq_getElem?_getD]
  cases hb : blocks[i]? with
  | none => rfl
  | some b => exact h b (List.getElem?_mem hb)

/-- A list of aligned sizes sums to a multiple of 8. -/
theorem sumSizes_mod8 (l : List Block) (h : ∀ b ∈ l, b.size % 8 = 0) :
    sumSizes l % 8 = 0 := by
  induction l with
  | nil => rfl
  | cons b bs ih =>
    have hb := h b (List.mem_cons_self b bs)
    have hbs := ih (fun x hx => h x (List.mem_cons_of_mem b hx))
    simp only [sumSizes]
    omega

/-- Payload addresses of an aligned heap are multiples of 8 (the fixed
72-byte offset included). -/
theorem addrOf_mod8 (blocks : List Block) (i : Nat) (h : aligned8 blocks) :
    addrOf blocks i % 8 = 0 := by
  unfold addrOf
  have hs := sumSizes_mod8 (blocks.take i) (fun b hb => h b (List.take_subset i blocks hb))
  have hM : (3 + MAXCLASS) * WSIZE = 72 := rfl
  omega


/-- Alignment of every block size survives coalescing: merged sizes are
sums of aligned sizes. -/
theorem aligned8_coalesce (st : Heap) (i : Nat) (h : aligned8 st.blocks) :
    aligned8 (coalesce st i).1.blocks := by
  have hb := aligned8_getD st.blocks i h
  have hn := aligned8_getD st.blocks (i + 1) h
  have hp : (getPrev st.blocks i).size % 8 = 0 := by
    unfold getPrev
    split
    · rfl
    · exact aligned8_getD st.blocks (i - 1) h
  simp only [coalesce]
  split_ifs with h1 h2 h3 <;> intro b hb2 <;>
    simp only [List.mem_append, List.mem_cons] at hb2
  · exact h b hb2
  · rcases hb2 with hb2 | hb2 | hb2
    · exact h b (List.take_subset _ _ hb2)
    · subst hb2
      simp only
      omega
    · exact h b (List.drop_subset _ _ hb2)
  · rcases hb2 with hb2 | hb2 | hb2
    · exact h b (List.take_subset _ _ hb2)
    · subst hb2
      simp only
      omega
    · exact h b (List.drop_subset _ _ hb2)
  · rcases hb2 with hb2 | hb2 | hb2
    · exact h b (List.take_subset _ _ hb2)
    · subst hb2
      simp only
      omega
    · exact h b (List.drop_subset _ _ hb2)

/-- Alignment of every block size survives heap extension: the new span's
size is ALIGNed before the free block is written over it. -/
theorem aligned8_extend (sbrk : Bool) (st : Heap) (sz : Nat) (st1 : Heap) (j : Nat)
    (h : aligned8 st.blocks) (he : extend_heap sbrk st sz = some (st1, j)) :
    aligned8 st1.blocks := by
  unfold extend_heap at he
  split at he
  · injection he with he'
    have hal : aligned8 (st.blocks ++ [(⟨ALIGN sz, false⟩ : Block)]) := by
      intro b hb
      rcases List.mem_append.mp hb with hb | hb
      · exact h b hb
      · simp only [List.mem_singleton] at hb
        subst hb
        simp only
        exact ALIGN_mod8 sz
    have hco := aligned8_coalesce ⟨st.blocks ++ [(⟨ALIGN sz, false⟩ : Block)], st.buckets⟩
      ((st.blocks ++ [(⟨ALIGN sz, false⟩ : Block)]).length - 1) hal
    have hst : st1 = (coalesce ⟨st.blocks ++ [(⟨ALIGN sz, false⟩ : Block)], st.buckets⟩
        ((st.blocks ++ [(⟨ALIGN sz, false⟩ : Block)]).length - 1)).1 := by
      rw [he']
    rw [hst]
    exact hco
  · cases he

/-- The payload pointer place hands back is 8-byte aligned whenever every
block size is a multiple of 8 and the request was adjusted. -/
theorem place_snd_mod8 (st : Heap) (i asize : Nat) (hal : aligned8 st.blocks)
    (ha : asize % 8 = 0) : (place st i asize).2 % 8 = 0 := by
  have hc := aligned8_getD st.blocks i hal
  have haddr := addrOf_mod8 st.blocks i hal
  simp only [place]
  split_ifs with h1 h2
  · exact haddr
  · exact haddr
  · simp only
    omega

/-- A successful mm_malloc returns an 8-byte aligned payload pointer
whenever every block size in the heap is a multiple of 8. -/
theorem mm_malloc_fst_aligned (sbrk : Bool) (st : Heap) (size p : Nat)
    (hal : aligned8 st.blocks) (h : (mm_malloc sbrk st size).1 = some p) :
    p % 8 = 0 := by
  by_cases h0 : size = 0
  · rw [h0] at h
    simp [mm_malloc] at h
  · unfold mm_malloc at h
    rw [if_neg h0] at h
    simp only at h
    cases hf : find_fit (adjust size) st.buckets with
    | some fs =>
      rw [hf] at h
      simp only at h
      cases hidx : st.blocks.findIdx? (fun b => !b.alloc && b.size == fs) with
      | some i0 =>
        rw [hidx] at h
        simp only at h
        injection h with h1
        rw [← h1]
        exact place_snd_mod8 st i0 (adjust size) hal (adjust_mod8 size)
      | none =>
        rw [hidx] at h
        simp at h
    | none =>
      rw [hf] at h
      simp only at h
      cases he : extend_heap sbrk st (max (adjust size) CHUNKSIZE) with
      | none =>
        rw [he] at h
        simp at h
      | some pr =>
        obtain ⟨st1, j⟩ := pr
        rw [he] at h
        simp only at h
        injection h with h1
        rw [← h1]
        exact place_snd_mod8 st1 j (adjust size)
          (aligned8_extend sbrk st (max (adjust size) CHUNKSIZE) st1 j hal he)
          (adjust_mod8 size)

/-- Claim C7: every non-null pointer returned by mm_malloc or mm_realloc
is 8-byte aligned (given the invariant that every block size in the heap
is a multiple of 8, which the code maintains; the heap base handed out by
the growth primitive is itself double-word aligned per the external
contract). -/
theorem c7_returned_pointers_aligned (sbrk : Bool) (st : Heap) (i size p q : Nat)
    (hal : aligned8 st.blocks) :
    ((mm_malloc sbrk st size).1 = some p → p % 8 = 0) ∧
    ((mm_realloc sbrk st i size).1 = some q → q % 8 = 0) := by
  constructor
  · exact fun h => mm_malloc_fst_aligned sbrk st size p hal h
  · intro h
    have haddr := addrOf_mod8 st.blocks i hal
    by_cases h0 : size = 0
    · rw [h0] at h
      simp [mm_realloc] at h
    · unfold mm_realloc at h
      rw [if_neg h0] at h
      simp only at h
      split at h
      · injection h with h1
        rw [← h1]
        exact haddr
      · split at h
        · split at h
          · split at h
            · simp at h
            · injection h with h1
              rw [← h1]
              exact haddr
          · injection h with h1
            rw [← h1]
            exact haddr
        · exact mm_malloc_fst_aligned sbrk st (adjust size) q hal h

/-- Claim C7 witness: a malloc of 8 bytes against the freshly initialised
heap and a shrinking realloc both return the payload address 72, a
multiple of 8. -/
theorem c7_returned_pointers_aligned_witness :
    aligned8 stOne.blocks ∧
    (((mm_malloc true stInit 8).1 = some 72 → 72 % 8 = 0) ∧
      ((mm_realloc true stOne 0 8).1 = some 72 → 72 % 8 = 0)) :=
  ⟨by decide,
    (c7_returned_pointers_aligned true stInit 0 8 72 72 (by decide)).1,
    (c7_returned_pointers_aligned true stOne 0 8 72 72 (by decide)).2⟩

/-- Alignment of every block size survives placement: the split pieces
have sizes asize and csize - asize, both multiples of 8. -/
theorem aligned8_place (st : Heap) (i asize : Nat) (hal : aligned8 st.blocks)
    (ha : asize % 8 = 0) : aligned8 (place st i asize).1.blocks := by
  have hc := aligned8_getD st.blocks i hal
  simp only [place]
  split_ifs with h1 h2 <;> intro b hb
  · rcases List.mem_or_eq_of_mem_set hb with hb | hb
    · exact hal b hb
    · subst hb
      simp only
      omega
  · simp only [List.mem_append, List.mem_cons] at hb
    rcases hb with hb | hb | hb | hb
    · exact hal b (List.take_subset _ _ hb)
    · subst hb
      simp only
      omega
    · subst hb
      simp only
      omega
    · exact hal b (List.drop_subset _ _ hb)
  · simp only [List.mem_append, List.mem_cons] at hb
    rcases hb with hb | hb | hb | hb
    · exact hal b (List.take_subset _ _ hb)
    · subst hb
      simp only
      omega
    · subst hb
      simp only
      omega
    · exact hal b (List.drop_subset _ _ hb)

/-- The sizes-are-multiples-of-8 invariant is preserved by mm_malloc,
whether it reuses a free block or extends the heap. -/
theorem aligned8_malloc (sbrk : Bool) (st : Heap) (size : Nat)
    (hal : aligned8 st.blocks) : aligned8 (mm_malloc sbrk st size).2.blocks := by
  by_cases h0 : size = 0
  · subst h0
    simpa [mm_malloc] using hal
  · unfold mm_malloc
    rw [if_neg h0]
    simp only
    cases hf : find_fit (adjust size) st.buckets with
    | some fs =>
      simp only
      cases hidx : st.blocks.findIdx? (fun b => !b.alloc && b.size == fs) with
      | some i0 =>
        simp only
        exact aligned8_place st i0 (adjust size) hal (adjust_mod8 size)
      | none => simpa using hal
    | none =>
      simp only
      cases he : extend_heap sbrk st (max (adjust size) CHUNKSIZE) with
      | none => simpa using hal
      | some pr =>
        obtain ⟨st1, j⟩ := pr
        simp only
        exact aligned8_place st1 j (adjust size)
          (aligned8_extend sbrk st (max (adjust size) CHUNKSIZE) st1 j hal he)
          (adjust_mod8 size)

/-- The sizes-are-multiples-of-8 invariant is preserved by mm_free. -/
theorem aligned8_free (st : Heap) (i : Nat) (hal : aligned8 st.blocks) :
    aligned8 (mm_free st i).blocks := by
  unfold mm_free
  simp only
  refine aligned8_coalesce _ i ?_
  intro b hb
  rcases List.mem_or_eq_of_mem_set hb with hb | hb
  · exact hal b hb
  · subst hb
    simp only
    exact aligned8_getD st.blocks i hal

/-- The sizes-are-multiples-of-8 invariant is preserved by mm_realloc on
every path: shrink (no change), in-place growth with or without a heap
extension, and the allocate-copy-free fallback. -/
theorem aligned8_realloc (sbrk : Bool) (st : Heap) (i size : Nat)
    (hal : aligned8 st.blocks) : aligned8 (mm_realloc sbrk st i size).2.blocks := by
  have hcur := aligned8_getD st.blocks i hal
  have hnb := aligned8_getD st.blocks (i + 1) hal
  have hadj := adjust_mod8 size
  by_cases h0 : size = 0
  · subst h0
    simpa [mm_realloc] using hal
  · unfold mm_realloc
    rw [if_neg h0]
    simp only
    split
    · exact hal
    · split
      · split
        · cases he : extend_heap sbrk st
            (max (adjust size -
              ((st.blocks.getD i sentinel).size + (st.blocks.getD (i + 1) sentinel).size))
              CHUNKSIZE) with
          | none => simpa using hal
          | some pr =>
            obtain ⟨st1, j⟩ := pr
            simp only
            have hal1 := aligned8_extend sbrk st _ st1 j hal he
            intro b hb
            simp only [List.mem_append, List.mem_cons] at hb
            rcases hb with hb | hb | hb
            · exact hal1 b (List.take_subset _ _ hb)
            · subst hb
              simp only
              have hM : CHUNKSIZE % 8 = 0 := rfl
              omega
            · exact hal1 b (List.drop_subset _ _ hb)
        · simp only
          intro b hb
          simp only [List.mem_append, List.mem_cons] at hb
          rcases hb with hb | hb | hb
          · exact hal b (List.take_subset _ _ hb)
          · subst hb
            simp only
            omega
          · exact hal b (List.drop_subset _ _ hb)
      · simp only
        split
        · exact aligned8_free _ _ (aligned8_malloc sbrk st (adjust size) hal)
        · exact aligned8_malloc sbrk st (adjust size) hal

/-- The freshly initialised heap satisfies the alignment invariant: one
free block of 4096 bytes. -/
theorem aligned8_init (st : Heap) (h : mm_init true = some st) :
    aligned8 st.blocks := by
  have : mm_init true = some ⟨[⟨4096, false⟩],
      (List.replicate MAXCLASS ([] : List Nat)).set 12 [4096]⟩ := by decide
  rw [this] at h
  injection h with h1
  rw [← h1]
  decide
